import Mathlib

/-!
Shallow embedding of the `stack-vec` crate: a fixed-capacity, inline-storage
vector `StackVec<T, N>` (src/lib.rs) together with its consuming iterator
`IntoIter` built on `RawIter` (src/iter.rs).

Modelling conventions:
* The `N` storage slots (`[MaybeUninit<T>; N]` in the source) become a
  `List (Option T)` of length `N`; an uninitialized slot is `none`.
* A raw read of slot `i` (`ptr::read`) is `List.getD d i none`; a raw write
  (`ptr::write`) is `List.set d i (some v)`.  A write outside the `N` slots
  targets memory that is not part of the container, so it leaves the slot
  list unchanged (`List.set` out of range is the identity).
* `ptr::copy` (overlapping memmove over the slot region) is `memCopy`,
  which reads every copied element from the original list.
* Mutating `&mut self` methods become functions returning the new state,
  paired with the source return value.  A panicking method returns
  `Option`, `none` meaning the panic was taken.
* `usize` arithmetic wraps modulo `2 ^ 64` where the source can overflow
  (`extend_with`'s length check).
* Destructor behaviour is modelled by returning the list of slot contents
  on which `drop_in_place` is invoked.
-/

/-- Error type of `try_push` (src/lib.rs, `struct NotEnoughSpaceError`). -/
structure NotEnoughSpaceError where
  deriving DecidableEq, Repr

/-- Error type of `try_insert` (src/lib.rs, `enum InsertError`). -/
inductive InsertError where
  | IndexOutOfRange
  | NotEnoughSpace
  deriving DecidableEq, Repr

/-- Number of values of the 64-bit `usize` type; machine addition wraps
modulo this. -/
def USIZE : Nat := 2 ^ 64

/-- The container `StackVec<T, N>` (src/lib.rs): `N` possibly-uninitialized
slots plus a length field. -/
structure StackVec (T : Type) (N : Nat) where
  data : List (Option T)
  len : Nat
  deriving DecidableEq, Repr

/-- Contents of slot `i` of a slot list (a raw `ptr::read` at offset `i`). -/
def slot {T : Type} (d : List (Option T)) (i : Nat) : Option T :=
  d.getD i none

/-- Embedding of `ptr::copy(p.add(src), p.add(dst), n)` over the slot
region: the `n` destination slots receive the original source slots
(memmove semantics: all reads happen before any write), everything else is
unchanged. -/
def memCopy {T : Type} (d : List (Option T)) (src dst n : Nat) : List (Option T) :=
  (List.range d.length).map fun i =>
    if dst ≤ i ∧ i < dst + n then slot d (src + (i - dst)) else slot d i

/-- Sequential `ptr::write` of the values `xs` into consecutive slots
starting at `start`. -/
def writeSeq {T : Type} (d : List (Option T)) (start : Nat) : List T → List (Option T)
  | [] => d
  | x :: xs => writeSeq (d.set start (some x)) (start + 1) xs

namespace StackVec

variable {T : Type} {N : Nat}

/-- `StackVec::new` (src/lib.rs): all slots uninitialized, `len = 0`. -/
def new (T : Type) (N : Nat) : StackVec T N :=
  ⟨List.replicate N none, 0⟩

/-- `StackVec::set_len` (src/lib.rs): just a setter. -/
def set_len (s : StackVec T N) (new_len : Nat) : StackVec T N :=
  ⟨s.data, new_len⟩

/-- `StackVec::from_array` (src/lib.rs): `None` if the array is longer than
`N`, otherwise copy the `M` values into a fresh container and set the
length to `M`. -/
def from_array (arr : List T) : Option (StackVec T N) :=
  if arr.length > N then none
  else some ⟨writeSeq (new T N).data 0 arr, arr.length⟩

/-- `StackVec::from_value` (src/lib.rs): `None` if `len > N`, otherwise
write `len` copies of `val` into a fresh container. -/
def from_value (val : T) (len : Nat) : Option (StackVec T N) :=
  if len > N then none
  else some ⟨writeSeq (new T N).data 0 (List.replicate len val), len⟩

/-- `StackVec::push_unchecked` (src/lib.rs): write at slot `len`, then
increment `len`. -/
def push_unchecked (s : StackVec T N) (value : T) : StackVec T N :=
  ⟨s.data.set s.len (some value), s.len + 1⟩

/-- `StackVec::push` (src/lib.rs): panicking variant; `none` models the
panic taken when `len` has reached the capacity. -/
def push (s : StackVec T N) (value : T) : Option (StackVec T N) :=
  if s.len < N then some (s.push_unchecked value) else none

/-- `StackVec::try_push` (src/lib.rs): checked variant returning the new
state and the `Result`. -/
def try_push (s : StackVec T N) (value : T) :
    StackVec T N × Except NotEnoughSpaceError Unit :=
  if s.len < N then (s.push_unchecked value, .ok ())
  else (s, .error ⟨⟩)

/-- `StackVec::insert_unchecked` (src/lib.rs): shift `[idx, len)` one slot
toward the back with `ptr::copy`, write `value` at `idx`, increment `len`. -/
def insert_unchecked (s : StackVec T N) (idx : Nat) (value : T) : StackVec T N :=
  ⟨(memCopy s.data idx (idx + 1) (s.len - idx)).set idx (some value), s.len + 1⟩

/-- `StackVec::insert` (src/lib.rs): panicking variant; `none` models the
panic on `idx > len` or on a full container. -/
def insert (s : StackVec T N) (idx : Nat) (value : T) : Option (StackVec T N) :=
  if idx > s.len then none
  else if s.len ≥ N then none
  else some (s.insert_unchecked idx value)

/-- `StackVec::try_insert` (src/lib.rs): checked variant; the index-range
check comes first, then the capacity check, and on error the state is
returned untouched. -/
def try_insert (s : StackVec T N) (idx : Nat) (value : T) :
    StackVec T N × Except InsertError Unit :=
  if idx > s.len then (s, .error .IndexOutOfRange)
  else if s.len ≥ N then (s, .error .NotEnoughSpace)
  else (s.insert_unchecked idx value, .ok ())

/-- `StackVec::pop` (src/lib.rs): decrement `len` and read the slot at the
new `len`; `none` when empty. -/
def pop (s : StackVec T N) : StackVec T N × Option T :=
  if s.len = 0 then (s, none)
  else (⟨s.data, s.len - 1⟩, slot s.data (s.len - 1))

/-- `StackVec::remove_unchecked` (src/lib.rs): decrement `len`, read the
slot at `idx`, then shift `[idx+1, old len)` back by one. -/
def remove_unchecked (s : StackVec T N) (idx : Nat) : StackVec T N × Option T :=
  ⟨⟨memCopy s.data (idx + 1) idx (s.len - 1 - idx), s.len - 1⟩, slot s.data idx⟩

/-- `StackVec::remove` (src/lib.rs): panicking variant; `none` models the
panic on `idx >= len`. -/
def remove (s : StackVec T N) (idx : Nat) : Option (StackVec T N × Option T) :=
  if idx ≥ s.len then none else some (s.remove_unchecked idx)

/-- `StackVec::try_remove` (src/lib.rs): returns `none` and leaves the
state untouched when `idx >= len`. -/
def try_remove (s : StackVec T N) (idx : Nat) : StackVec T N × Option T :=
  if idx ≥ s.len then (s, none) else s.remove_unchecked idx

/-- Values destroyed by `StackVec::drop_range(a..b)` (src/lib.rs): the
contents of slots `[a, b)` when `a < b`, nothing otherwise.  The slots
themselves keep their bits. -/
def drop_range_vals {T : Type} (d : List (Option T)) (a b : Nat) : List (Option T) :=
  if a < b then (d.drop a).take (b - a) else []

/-- `StackVec::truncate` (src/lib.rs): destroy slots `[new_len, len)` and
set `len` to `min len new_len`; returns the new state and the destroyed
values. -/
def truncate (s : StackVec T N) (new_len : Nat) :
    StackVec T N × List (Option T) :=
  (⟨s.data, min s.len new_len⟩, drop_range_vals s.data new_len s.len)

/-- `StackVec::clear` (src/lib.rs): destroy slots `[0, len)` and set `len`
to `0`. -/
def clear (s : StackVec T N) : StackVec T N :=
  ⟨s.data, 0⟩

/-- `StackVec::extend_with` (src/lib.rs): the new length is computed with
wrapping `usize` addition `self.len + n`; panic (`none`) when that wrapped
sum exceeds `N`, otherwise write `n` copies of `val` starting at slot
`len` and set `len` to the wrapped sum. -/
def extend_with (s : StackVec T N) (n : Nat) (val : T) : Option (StackVec T N) :=
  let new_len := (s.len + n) % USIZE
  if new_len > N then none
  else some ⟨writeSeq s.data s.len (List.replicate n val), new_len⟩

/-- The half-open run of raw slot offsets targeted by the write loop of
`extend_with` once its capacity check has passed (src/lib.rs lines
348-354): `ptr` starts at offset `self.len` and is bumped once per write,
`n` times, so the writes land on offsets `[len, len + n)` — irrespective
of whether those offsets lie inside the container's `N` slots. -/
def extend_with_targets (s : StackVec T N) (n : Nat) : Nat × Nat :=
  (s.len, s.len + n)

/-- `StackVec::resize` (src/lib.rs): grow via `extend_with` or shrink via
`truncate`. -/
def resize (s : StackVec T N) (new_len : Nat) (val : T) : Option (StackVec T N) :=
  if new_len > s.len then s.extend_with (new_len - s.len) val
  else some (s.truncate new_len).1

/-- The `Extend` impl (src/lib.rs): append the elements one at a time;
the `Bool` is `true` when the capacity ran out and the panic was taken,
with the partial extension retained. -/
def extend (s : StackVec T N) : List T → StackVec T N × Bool
  | [] => (s, false)
  | x :: xs =>
      if s.len = N then (s, true)
      else extend ⟨s.data.set s.len (some x), s.len + 1⟩ xs

/-- The `Deref` impl / `as_slice` (src/lib.rs): the bounded view of the
live range, slot by slot over `[0, len)`. -/
def viewO (s : StackVec T N) : List (Option T) :=
  (List.range s.len).map fun i => slot s.data i

/-- The representation invariant of `StackVec<T, N>`: `N` slots, a length
of at most `N`, and a live (initialized) value in every slot of
`[0, len)`. -/
def Inv (s : StackVec T N) : Prop :=
  s.data.length = N ∧ s.len ≤ N ∧ ∀ i, i < s.len → (slot s.data i).isSome

instance (s : StackVec T N) : Decidable s.Inv := by
  unfold Inv
  infer_instance

/-- Repeated `push` (the panicking variant) of the values `xs` in order;
`none` as soon as one push panics. -/
def pushAll (s : StackVec T N) : List T → Option (StackVec T N)
  | [] => some s
  | x :: xs =>
      match s.push x with
      | none => none
      | some s2 => pushAll s2 xs

/-- Repeated `pop` with explicit fuel, collecting the returned values in
order and stopping at the first empty indication. -/
def popAllAux : Nat → StackVec T N → List T × StackVec T N
  | 0, s => ([], s)
  | fuel + 1, s =>
      match s.pop with
      | (_, none) => ([], s)
      | (s2, some v) =>
          let r := popAllAux fuel s2
          (v :: r.1, r.2)

/-- Pops a container until empty, returning the popped values in pop order
together with the final state. -/
def popAll (s : StackVec T N) : List T × StackVec T N :=
  popAllAux s.len s

/-- The invariant lifted to the result of a possibly-panicking operation
(`none` is the panic, which returns no container at all). -/
def InvO : Option (StackVec T N) → Prop
  | none => True
  | some s => s.Inv

/-- The invariant of the state component of a possibly-panicking operation
that also returns a value. -/
def InvP : Option (StackVec T N × Option T) → Prop
  | none => True
  | some p => p.1.Inv

end StackVec

/-- The consuming iterator `IntoIter<T, N>` (src/iter.rs) at the value
level, for an element type of nonzero size: the two `RawIter` cursors
measured in element offsets, the `initial_len` field, and the iterator's
private slot copy `data`.  The source's cursors address the original
container's storage, whose contents coincide with the copy in `data`;
reads through them are modelled as reads of `data`.  The degenerate
address arithmetic of zero-sized element types is modelled separately by
`RawIter` below. -/
structure IntoIter (T : Type) (N : Nat) where
  raw_begin : Nat
  raw_end : Nat
  initial_len : Nat
  data : List (Option T)
  deriving DecidableEq, Repr

namespace IntoIter

variable {T : Type} {N : Nat}

/-- `Iterator::next` for `IntoIter`, via `RawIter::next` (src/iter.rs):
exhausted when the cursors meet, otherwise read the element at `begin` and
advance `begin` by one element. -/
def next (it : IntoIter T N) : Option T × IntoIter T N :=
  if it.raw_begin = it.raw_end then (none, it)
  else (slot it.data it.raw_begin, { it with raw_begin := it.raw_begin + 1 })

/-- `DoubleEndedIterator::next_back` for `IntoIter`, via
`RawIter::next_back` (src/iter.rs): exhausted when the cursors meet,
otherwise retreat `end` by one element and read there. -/
def next_back (it : IntoIter T N) : Option T × IntoIter T N :=
  if it.raw_begin = it.raw_end then (none, it)
  else (slot it.data (it.raw_end - 1), { it with raw_end := it.raw_end - 1 })

/-- Values destroyed by `impl Drop for IntoIter` (src/iter.rs): the
destructor runs `drop_in_place` on every slot of `data[0..initial_len]`,
irrespective of the current cursor positions. -/
def drop_destroyed (it : IntoIter T N) : List (Option T) :=
  it.data.take it.initial_len

end IntoIter

namespace StackVec

variable {T : Type} {N : Nat}

/-- `StackVec::into_iter` (src/iter.rs): `begin` and `end` span the `len`
occupied slots, `initial_len` is `len`, and the first `len` slots are
copied (`ptr::copy_nonoverlapping`) into the iterator's own storage, whose
tail stays uninitialized. -/
def into_iter (s : StackVec T N) : IntoIter T N :=
  ⟨0, s.len, s.len, s.data.take s.len ++ List.replicate (N - s.len) none⟩

end StackVec

/-- The raw double-ended cursor `RawIter<T>` (src/iter.rs) at the address
level: `begin` and `end_` hold the byte addresses the source's two
pointers hold.  The element size `mem::size_of::<T>()` is passed to each
operation as `sz`. -/
structure RawIter where
  begin : Nat
  end_ : Nat
  deriving DecidableEq, Repr

namespace RawIter

/-- `RawIter::len` (src/iter.rs): for a zero-sized element type the byte
distance itself, otherwise the byte distance divided by the element
size. -/
def len (sz : Nat) (it : RawIter) : Nat :=
  if sz = 0 then it.end_ - it.begin else (it.end_ - it.begin) / sz

/-- `RawIter::next` (src/iter.rs): pointer-equality exhaustion test, then
`begin.add(1)` advances by one element, i.e. `sz` bytes. -/
def next (sz : Nat) (it : RawIter) : Option RawIter :=
  if it.begin = it.end_ then none else some ⟨it.begin + sz, it.end_⟩

/-- `RawIter::next_back` (src/iter.rs): pointer-equality exhaustion test,
then `end.sub(1)` retreats by one element, i.e. `sz` bytes. -/
def next_back (sz : Nat) (it : RawIter) : Option RawIter :=
  if it.begin = it.end_ then none else some ⟨it.begin, it.end_ - sz⟩

end RawIter

/-- The `raw_iter` field built by `StackVec::into_iter` (src/iter.rs) for a
container of length `len` whose storage starts at byte address `base`:
`begin` is the storage base and `end` is `begin.add(len)`, which lands
`len * sz` bytes further for an element size of `sz`. -/
def intoIterRaw (sz base len : Nat) : RawIter :=
  ⟨base, base + len * sz⟩

section SlotLemmas

variable {T : Type}

theorem slot_eq_getElem? (d : List (Option T)) (i : Nat) : slot d i = (d[i]?).getD none := by
  simp [slot, List.getD_eq_getElem?_getD]

theorem slot_of_ge {d : List (Option T)} {i : Nat} (h : d.length ≤ i) : slot d i = none := by
  rw [slot_eq_getElem?, List.getElem?_eq_none_iff.mpr h]
  rfl

theorem slot_of_lt {d : List (Option T)} {i : Nat} (h : i < d.length) :
    slot d i = d.get ⟨i, h⟩ := by
  rw [slot_eq_getElem?, List.getElem?_eq_getElem h]
  rfl

theorem slot_set (d : List (Option T)) (j : Nat) (v : Option T) (i : Nat) :
    slot (d.set j v) i = if i = j ∧ j < d.length then v else slot d i := by
  rw [slot_eq_getElem?, slot_eq_getElem?, List.getElem?_set]
  by_cases h : i = j ∧ j < d.length
  · obtain ⟨rfl, hj⟩ := h
    simp [hj]
  · by_cases hji : j = i
    · subst hji
      have hj : ¬ j < d.length := fun hc => h ⟨rfl, hc⟩
      simp [hj, slot_eq_getElem?, List.getElem?_eq_none_iff.mpr (Nat.le_of_not_lt hj)]
    · simp [hji, h]

theorem length_memCopy (d : List (Option T)) (src dst n : Nat) :
    (memCopy d src dst n).length = d.length := by
  simp [memCopy]

theorem slot_memCopy (d : List (Option T)) (src dst n i : Nat) :
    slot (memCopy d src dst n) i =
      if dst ≤ i ∧ i < dst + n ∧ i < d.length then slot d (src + (i - dst))
      else slot d i := by
  by_cases hi : i < d.length
  · rw [slot_eq_getElem?, memCopy, List.getElem?_map,
      List.getElem?_range (by simpa using hi)]
    simp only [Option.map_some', Option.getD_some]
    by_cases h : dst ≤ i ∧ i < dst + n
    · rw [if_pos h, if_pos ⟨h.1, h.2, hi⟩]
    · rw [if_neg h, if_neg (by tauto)]
  · rw [if_neg (by tauto), slot_of_ge (Nat.le_of_not_lt hi),
      slot_of_ge (by rw [length_memCopy]; omega)]

theorem length_writeSeq (xs : List T) (d : List (Option T)) (start : Nat) :
    (writeSeq d start xs).length = d.length := by
  induction xs generalizing d start with
  | nil => rfl
  | cons x xs ih => rw [writeSeq, ih, List.length_set]

theorem slot_writeSeq (xs : List T) (d : List (Option T)) (start i : Nat) :
    slot (writeSeq d start xs) i =
      if start ≤ i ∧ i < start + xs.length ∧ i < d.length then (xs[i - start]?).map some |>.getD none
      else slot d i := by
  induction xs generalizing d start with
  | nil =>
      rw [writeSeq, if_neg]
      simp only [List.length_nil]
      omega
  | cons x xs ih =>
      rw [writeSeq, ih, List.length_set]
      by_cases h1 : start + 1 ≤ i ∧ i < start + 1 + xs.length ∧ i < d.length
      · rw [if_pos h1, if_pos (by simp only [List.length_cons]; omega)]
        have hsub : i - start = (i - (start + 1)) + 1 := by omega
        rw [hsub, List.getElem?_cons_succ]
      · rw [if_neg h1, slot_set]
        by_cases h2 : start ≤ i ∧ i < start + (x :: xs).length ∧ i < d.length
        · have hi : i = start := by simp only [List.length_cons] at h2; omega
          subst hi
          rw [if_pos h2, if_pos ⟨rfl, h2.2.2⟩]
          simp
        · rw [if_neg h2, if_neg (by simp only [List.length_cons] at h2 ⊢; omega)]

end SlotLemmas

namespace StackVec

variable {T : Type} {N : Nat}

theorem length_viewO (s : StackVec T N) : (viewO s).length = s.len := by
  simp [viewO]

theorem getElem?_viewO (s : StackVec T N) (i : Nat) :
    (viewO s)[i]? = if i < s.len then some (slot s.data i) else none := by
  by_cases h : i < s.len
  · rw [viewO, List.getElem?_map, List.getElem?_range (by simpa using h), if_pos h]
    rfl
  · rw [if_neg h, List.getElem?_eq_none_iff.mpr (by rw [length_viewO]; omega)]

theorem viewO_eq_take (s : StackVec T N) (h : s.len ≤ s.data.length) :
    viewO s = s.data.take s.len := by
  apply List.ext_getElem?_iff.mpr
  intro i
  rw [getElem?_viewO]
  by_cases hi : i < s.len
  · rw [if_pos hi, List.getElem?_take_of_lt hi, slot_eq_getElem?,
      List.getElem?_eq_getElem (by omega)]
    rfl
  · rw [if_neg hi, Eq.comm, List.getElem?_eq_none_iff]
    simp only [List.length_take]
    omega

theorem inv_iff (s : StackVec T N) :
    s.Inv ↔ s.data.length = N ∧ s.len ≤ N ∧ ∀ o ∈ viewO s, o.isSome := by
  unfold Inv
  simp only [viewO, List.mem_map, List.mem_range]
  constructor
  · rintro ⟨h1, h2, h3⟩
    exact ⟨h1, h2, by rintro o ⟨i, hi, rfl⟩; exact h3 i hi⟩
  · rintro ⟨h1, h2, h3⟩
    exact ⟨h1, h2, fun i hi => h3 _ ⟨i, hi, rfl⟩⟩

theorem inv_new : (new T N).Inv :=
  ⟨by simp [new], by simp [new], by simp [new]⟩

theorem inv_push_unchecked {s : StackVec T N} (h : s.Inv) (hlen : s.len < N) (v : T) :
    (s.push_unchecked v).Inv := by
  obtain ⟨hd, hl, hs⟩ := h
  refine ⟨by simp [push_unchecked, hd], by simp [push_unchecked]; omega, ?_⟩
  intro i hi
  simp only [push_unchecked] at hi ⊢
  rw [slot_set]
  by_cases hc : i = s.len ∧ s.len < s.data.length
  · rw [if_pos hc]; rfl
  · rw [if_neg hc]
    exact hs i (by omega)

theorem viewO_push_unchecked {s : StackVec T N} (hd : s.data.length = N)
    (hlen : s.len < N) (v : T) :
    viewO (s.push_unchecked v) = viewO s ++ [some v] := by
  apply List.ext_getElem?_iff.mpr
  intro i
  rw [getElem?_viewO]
  simp only [push_unchecked]
  by_cases h1 : i < s.len
  · rw [if_pos (by omega), slot_set, if_neg (by omega),
      List.getElem?_append_left (by rw [length_viewO]; omega), getElem?_viewO, if_pos h1]
  · by_cases h2 : i = s.len
    · subst h2
      rw [if_pos (by omega), slot_set, if_pos ⟨rfl, by omega⟩,
        List.getElem?_append_right (by simp [length_viewO]), length_viewO]
      simp
    · rw [if_neg (by omega), Eq.comm, List.getElem?_eq_none_iff]
      simp only [List.length_append, length_viewO, List.length_cons, List.length_nil]
      omega

theorem inv_insert_unchecked {s : StackVec T N} (h : s.Inv) {idx : Nat}
    (hidx : idx ≤ s.len) (hlen : s.len < N) (v : T) :
    (s.insert_unchecked idx v).Inv := by
  obtain ⟨hd, hl, hs⟩ := h
  refine ⟨by simp [insert_unchecked, length_memCopy, hd],
    by simp [insert_unchecked]; omega, ?_⟩
  intro i hi
  simp only [insert_unchecked] at hi ⊢
  rw [slot_set, length_memCopy]
  by_cases hc : i = idx ∧ idx < s.data.length
  · rw [if_pos hc]; rfl
  · rw [if_neg hc, slot_memCopy]
    by_cases hw : idx + 1 ≤ i ∧ i < idx + 1 + (s.len - idx) ∧ i < s.data.length
    · rw [if_pos hw]
      have he : idx + (i - (idx + 1)) = i - 1 := by omega
      rw [he]
      exact hs _ (by omega)
    · rw [if_neg hw]
      exact hs i (by omega)

theorem viewO_insert_unchecked {s : StackVec T N} (hd : s.data.length = N) {idx : Nat}
    (hidx : idx ≤ s.len) (hlen : s.len < N) (v : T) :
    viewO (s.insert_unchecked idx v) =
      (viewO s).take idx ++ some v :: (viewO s).drop idx := by
  have hlt : (viewO s).length = s.len := length_viewO s
  apply List.ext_getElem?_iff.mpr
  intro i
  rw [getElem?_viewO]
  simp only [insert_unchecked]
  have htk : ((viewO s).take idx).length = idx := by
    rw [List.length_take]; omega
  by_cases h1 : i < idx
  · rw [if_pos (by omega), slot_set, if_neg (by omega), slot_memCopy,
      if_neg (by omega), List.getElem?_append_left (by omega),
      List.getElem?_take_of_lt h1, getElem?_viewO, if_pos (by omega)]
  · by_cases h2 : i = idx
    · subst h2
      rw [if_pos (by omega), slot_set, length_memCopy, if_pos ⟨rfl, by omega⟩,
        List.getElem?_append_right (by omega), htk]
      simp
    · by_cases h3 : i < s.len + 1
      · rw [if_pos h3, slot_set, if_neg (by omega), slot_memCopy,
          if_pos (by constructor; omega; constructor; omega; omega),
          List.getElem?_append_right (by omega), htk]
        have he : i - idx = (i - idx - 1) + 1 := by omega
        rw [he, List.getElem?_cons_succ, List.getElem?_drop, getElem?_viewO,
          if_pos (by omega)]
        have he2 : idx + (i - (idx + 1)) = idx + (i - idx - 1) := by omega
        rw [he2]
      · rw [if_neg h3, Eq.comm, List.getElem?_eq_none_iff]
        simp only [List.length_append, List.length_cons, List.length_drop, htk, hlt]
        omega

theorem inv_remove_unchecked {s : StackVec T N} (h : s.Inv) {idx : Nat}
    (hidx : idx < s.len) :
    (s.remove_unchecked idx).1.Inv := by
  obtain ⟨hd, hl, hs⟩ := h
  refine ⟨by simp [remove_unchecked, length_memCopy, hd],
    by simp [remove_unchecked]; omega, ?_⟩
  intro i hi
  simp only [remove_unchecked] at hi ⊢
  rw [slot_memCopy]
  by_cases hw : idx ≤ i ∧ i < idx + (s.len - 1 - idx) ∧ i < s.data.length
  · rw [if_pos hw]
    have he : idx + 1 + (i - idx) = i + 1 := by omega
    rw [he]
    exact hs _ (by omega)
  · rw [if_neg hw]
    exact hs i (by omega)

theorem viewO_remove_unchecked {s : StackVec T N} (hd : s.data.length = N) {idx : Nat}
    (hidx : idx < s.len) (hlen : s.len ≤ N) :
    viewO (s.remove_unchecked idx).1 =
      (viewO s).take idx ++ (viewO s).drop (idx + 1) := by
  have hlt : (viewO s).length = s.len := length_viewO s
  apply List.ext_getElem?_iff.mpr
  intro i
  rw [getElem?_viewO]
  simp only [remove_unchecked]
  have htk : ((viewO s).take idx).length = idx := by
    rw [List.length_take]; omega
  by_cases h1 : i < idx
  · rw [if_pos (by omega), slot_memCopy, if_neg (by omega),
      List.getElem?_append_left (by omega), List.getElem?_take_of_lt h1,
      getElem?_viewO, if_pos (by omega)]
  · by_cases h2 : i < s.len - 1
    · rw [if_pos h2, slot_memCopy, if_pos (by constructor; omega; constructor; omega; omega),
        List.getElem?_append_right (by omega), htk, List.getElem?_drop,
        getElem?_viewO, if_pos (by omega)]
    · rw [if_neg h2, Eq.comm, List.getElem?_eq_none_iff]
      simp only [List.length_append, List.length_drop, htk, hlt]
      omega

theorem inv_mk_writeSeq (xs : List T) (k : Nat) (hk : k = xs.length)
    (h : xs.length ≤ N) :
    (⟨writeSeq (new T N).data 0 xs, k⟩ : StackVec T N).Inv := by
  subst hk
  refine ⟨?_, h, ?_⟩
  · show (writeSeq (new T N).data 0 xs).length = N
    rw [length_writeSeq]
    simp [new]
  · intro i hi
    have hi' : i < xs.length := hi
    show (slot (writeSeq (new T N).data 0 xs) i).isSome
    rw [slot_writeSeq, if_pos ⟨Nat.zero_le i, by omega, by simp [new]; omega⟩,
      Nat.sub_zero, List.getElem?_eq_getElem hi']
    rfl

theorem inv_from_array {arr : List T} {s : StackVec T N}
    (h : from_array arr = some s) : s.Inv := by
  rw [from_array] at h
  by_cases hg : arr.length > N
  · rw [if_pos hg] at h
    exact absurd h (by simp)
  · rw [if_neg hg] at h
    obtain rfl := Option.some.inj h
    exact inv_mk_writeSeq arr arr.length rfl (Nat.le_of_not_lt hg)

theorem inv_from_value {val : T} {k : Nat} {s : StackVec T N}
    (h : from_value val k = some s) : s.Inv := by
  rw [from_value] at h
  by_cases hg : k > N
  · rw [if_pos hg] at h
    exact absurd h (by simp)
  · rw [if_neg hg] at h
    obtain rfl := Option.some.inj h
    exact inv_mk_writeSeq (List.replicate k val) k (by simp)
      (by simp; omega)

theorem inv_extend_with {s : StackVec T N} (h : s.Inv) {n : Nat} {val : T}
    {s2 : StackVec T N} (he : s.extend_with n val = some s2) : s2.Inv := by
  obtain ⟨hd, hl, hs⟩ := h
  rw [extend_with] at he
  by_cases hg : (s.len + n) % USIZE > N
  · rw [if_pos hg] at he
    exact absurd he (by simp)
  · rw [if_neg hg] at he
    obtain rfl := Option.some.inj he
    refine ⟨?_, Nat.le_of_not_lt hg, ?_⟩
    · show (writeSeq s.data s.len (List.replicate n val)).length = N
      rw [length_writeSeq]
      exact hd
    · intro i hi
      have hi' : i < (s.len + n) % USIZE := hi
      show (slot (writeSeq s.data s.len (List.replicate n val)) i).isSome
      rw [slot_writeSeq]
      by_cases hw : s.len ≤ i
      · have h1 : i < s.len + n := Nat.lt_of_lt_of_le hi' (Nat.mod_le _ _)
        have h2 : i < s.data.length := by omega
        rw [if_pos ⟨hw, by simpa using h1, h2⟩,
          List.getElem?_replicate_of_lt (by omega)]
        rfl
      · rw [if_neg (by simp only [List.length_replicate]; omega)]
        exact hs i (by omega)

theorem inv_extend {s : StackVec T N} (h : s.Inv) (xs : List T) :
    (s.extend xs).1.Inv := by
  induction xs generalizing s with
  | nil => exact h
  | cons x xs ih =>
      rw [extend]
      by_cases hc : s.len = N
      · rw [if_pos hc]
        exact h
      · rw [if_neg hc]
        exact ih (inv_push_unchecked h (lt_of_le_of_ne h.2.1 hc) x)

theorem inv_pop {s : StackVec T N} (h : s.Inv) : (s.pop).1.Inv := by
  obtain ⟨hd, hl, hs⟩ := h
  rw [pop]
  by_cases hc : s.len = 0
  · rw [if_pos hc]
    exact ⟨hd, hl, hs⟩
  · rw [if_neg hc]
    exact ⟨hd, Nat.le_trans (Nat.sub_le _ _) hl,
      fun i hi => hs i (Nat.lt_of_lt_of_le hi (Nat.sub_le _ _))⟩

theorem inv_truncate {s : StackVec T N} (h : s.Inv) (k : Nat) :
    (s.truncate k).1.Inv := by
  obtain ⟨hd, hl, hs⟩ := h
  exact ⟨hd, Nat.le_trans (Nat.min_le_left _ _) hl,
    fun i hi => hs i (Nat.lt_of_lt_of_le hi (Nat.min_le_left _ _))⟩

theorem inv_clear {s : StackVec T N} (h : s.Inv) : s.clear.Inv :=
  ⟨h.1, Nat.zero_le N, fun i hi => absurd hi (Nat.not_lt_zero i)⟩

theorem inv_try_push {s : StackVec T N} (h : s.Inv) (v : T) :
    (s.try_push v).1.Inv := by
  rw [try_push]
  by_cases hc : s.len < N
  · rw [if_pos hc]
    exact inv_push_unchecked h hc v
  · rw [if_neg hc]
    exact h

theorem invO_push {s : StackVec T N} (h : s.Inv) (v : T) : InvO (s.push v) := by
  rw [push]
  by_cases hc : s.len < N
  · rw [if_pos hc]
    exact inv_push_unchecked h hc v
  · rw [if_neg hc]
    trivial

theorem inv_try_insert {s : StackVec T N} (h : s.Inv) (idx : Nat) (v : T) :
    (s.try_insert idx v).1.Inv := by
  rw [try_insert]
  by_cases h1 : idx > s.len
  · rw [if_pos h1]
    exact h
  · rw [if_neg h1]
    by_cases h2 : s.len ≥ N
    · rw [if_pos h2]
      exact h
    · rw [if_neg h2]
      exact inv_insert_unchecked h (by omega) (by omega) v

theorem invO_insert {s : StackVec T N} (h : s.Inv) (idx : Nat) (v : T) :
    InvO (s.insert idx v) := by
  rw [insert]
  by_cases h1 : idx > s.len
  · rw [if_pos h1]
    trivial
  · rw [if_neg h1]
    by_cases h2 : s.len ≥ N
    · rw [if_pos h2]
      trivial
    · rw [if_neg h2]
      exact inv_insert_unchecked h (by omega) (by omega) v

theorem invP_remove {s : StackVec T N} (h : s.Inv) (idx : Nat) :
    InvP (s.remove idx) := by
  rw [remove]
  by_cases hc : idx ≥ s.len
  · rw [if_pos hc]
    trivial
  · rw [if_neg hc]
    exact inv_remove_unchecked h (by omega)

theorem inv_try_remove {s : StackVec T N} (h : s.Inv) (idx : Nat) :
    (s.try_remove idx).1.Inv := by
  rw [try_remove]
  by_cases hc : idx ≥ s.len
  · rw [if_pos hc]
    exact h
  · rw [if_neg hc]
    exact inv_remove_unchecked h (by omega)

theorem invO_extend_with {s : StackVec T N} (h : s.Inv) (n : Nat) (v : T) :
    InvO (s.extend_with n v) := by
  cases he : s.extend_with n v with
  | none => trivial
  | some s2 => exact inv_extend_with h he

theorem invO_from_array (arr : List T) :
    InvO (StackVec.from_array arr : Option (StackVec T N)) := by
  cases h : (StackVec.from_array arr : Option (StackVec T N)) with
  | none => trivial
  | some s2 => exact inv_from_array h

theorem invO_from_value (val : T) (k : Nat) :
    InvO (StackVec.from_value val k : Option (StackVec T N)) := by
  cases h : (StackVec.from_value val k : Option (StackVec T N)) with
  | none => trivial
  | some s2 => exact inv_from_value h

theorem invO_resize {s : StackVec T N} (h : s.Inv) (k : Nat) (v : T) :
    InvO (s.resize k v) := by
  rw [resize]
  by_cases hc : k > s.len
  · rw [if_pos hc]
    exact invO_extend_with h _ _
  · rw [if_neg hc]
    exact inv_truncate h k

theorem pushAll_ok {s : StackVec T N} (hinv : s.Inv) (xs : List T)
    (hle : s.len + xs.length ≤ N) :
    ∃ s2, pushAll s xs = some s2 ∧ s2.Inv ∧ s2.len = s.len + xs.length ∧
      viewO s2 = viewO s ++ xs.map some := by
  induction xs generalizing s with
  | nil => exact ⟨s, rfl, hinv, by simp, by simp⟩
  | cons x xs ih =>
      have hlt : s.len < N := by
        simp only [List.length_cons] at hle
        omega
      have hp : s.push x = some (s.push_unchecked x) := by rw [push, if_pos hlt]
      have hle2 : (s.push_unchecked x).len + xs.length ≤ N := by
        show s.len + 1 + xs.length ≤ N
        simp only [List.length_cons] at hle
        omega
      obtain ⟨s2, h1, h2, h3, h4⟩ := ih (inv_push_unchecked hinv hlt x) hle2
      refine ⟨s2, ?_, h2, ?_, ?_⟩
      · rw [pushAll, hp]
        exact h1
      · rw [h3]
        show s.len + 1 + xs.length = s.len + (x :: xs).length
        simp only [List.length_cons]
        omega
      · rw [h4, viewO_push_unchecked hinv.1 hlt x]
        simp

theorem popAllAux_spec (n : Nat) (s : StackVec T N) (hinv : s.Inv)
    (hn : s.len = n) :
    (popAllAux n s).2 = ⟨s.data, 0⟩ ∧
      (popAllAux n s).1.map some = (viewO s).reverse := by
  induction n generalizing s with
  | zero =>
      refine ⟨?_, ?_⟩
      · have heta : s = ⟨s.data, s.len⟩ := rfl
        rw [hn] at heta
        exact heta.symm.symm ▸ heta
      · show ([] : List T).map some = (viewO s).reverse
        rw [viewO, hn]
        simp
  | succ n ih =>
      obtain ⟨hd, hl, hs⟩ := hinv
      have hsl : s.len - 1 < s.len := by omega
      have hsome := hs (s.len - 1) hsl
      obtain ⟨v, hv⟩ := Option.isSome_iff_exists.mp hsome
      have hpop : s.pop = (⟨s.data, s.len - 1⟩, some v) := by
        rw [pop, if_neg (by omega), hv]
      have ihres := ih ⟨s.data, s.len - 1⟩
        ⟨hd, Nat.le_trans (Nat.sub_le _ _) hl,
          fun i hi => hs i (Nat.lt_of_lt_of_le hi (Nat.sub_le _ _))⟩
        (by show s.len - 1 = n; omega)
      rw [popAllAux, hpop]
      refine ⟨?_, ?_⟩
      · show (popAllAux n ⟨s.data, s.len - 1⟩).2 = ⟨s.data, 0⟩
        rw [ihres.1]
      · show (v :: (popAllAux n ⟨s.data, s.len - 1⟩).1).map some = (viewO s).reverse
        rw [List.map_cons, ihres.2]
        show some v :: (viewO (⟨s.data, s.len - 1⟩ : StackVec T N)).reverse
          = (viewO s).reverse
        rw [viewO, viewO]
        have h1 : s.len - 1 = n := by omega
        have hv' : slot s.data n = some v := h1 ▸ hv
        show some v :: ((List.range (s.len - 1)).map fun i => slot s.data i).reverse
          = ((List.range s.len).map fun i => slot s.data i).reverse
        rw [h1, hn, List.range_succ, List.map_append, List.reverse_append]
        simp [hv']

end StackVec

/-- C1: counter-evidence from the code.  For the one-element container
`[5]`, converting with `into_iter` and yielding the single element with
`next` leaves zero unyielded elements (the cursors meet), yet the
iterator's destructor still destroys the full `data[0..initial_len]`
range — i.e. the already-yielded element — so that element is destroyed
twice (once by its new owner and once by the destructor) instead of the
claimed exactly once. -/
theorem C1_into_iter_drop_destroys_yielded :
    ((⟨[some 5], 1⟩ : StackVec Nat 1).into_iter.next).1 = some 5 ∧
    ((⟨[some 5], 1⟩ : StackVec Nat 1).into_iter.next).2.raw_begin
      = ((⟨[some 5], 1⟩ : StackVec Nat 1).into_iter.next).2.raw_end ∧
    ((⟨[some 5], 1⟩ : StackVec Nat 1).into_iter.next).2.drop_destroyed = [some 5] := by
  decide

/-- C2: counter-evidence from the code.  For a zero-sized element type
(`sz = 0`), the `end` cursor built by `into_iter` for a container of
length 3 is `base + 3 * 0 = base`, so it coincides with `begin`:
`RawIter::len` reports 0 remaining elements where the claim requires
`L - k - j = 3`, and `next` is immediately exhausted. -/
theorem C2_zst_len_degenerates :
    RawIter.len 0 (intoIterRaw 0 4096 3) = 0 ∧
    RawIter.next 0 (intoIterRaw 0 4096 3) = none := by
  decide

/-- C3: counter-evidence from the code.  With capacity `N = 1`, a
container already holding one element, and `n = 2^64 - 1`, the length
computation `self.len + n` wraps to `0`, the capacity check `new_len > N`
therefore passes, and `extend_with` is not fatal — even though the exact
sum `1 + n = 2^64` exceeds the capacity, where the claim demands a panic
with nothing appended. -/
theorem C3_extend_with_overflow_not_fatal :
    ((⟨[some 5], 1⟩ : StackVec Nat 1).extend_with (USIZE - 1) 7).isSome = true ∧
    1 + (USIZE - 1) > 1 := by
  refine ⟨?_, by norm_num [USIZE]⟩
  rw [StackVec.extend_with]
  norm_num [USIZE]

/-- C4: `try_insert` fails with `IndexOutOfRange` whenever `idx > len`
(that check taking precedence over the capacity check), fails with
`NotEnoughSpace` whenever `idx ≤ len` and `len = N`, and on either error
returns the container completely unchanged. -/
theorem C4_try_insert_errors {T : Type} {N : Nat} (s : StackVec T N) (idx : Nat) (v : T) :
    (idx > s.len → s.try_insert idx v = (s, .error .IndexOutOfRange)) ∧
    (idx ≤ s.len → s.len = N → s.try_insert idx v = (s, .error .NotEnoughSpace)) := by
  constructor
  · intro h1
    rw [StackVec.try_insert, if_pos h1]
  · intro h1 h2
    rw [StackVec.try_insert, if_neg (by omega), if_pos (by omega)]

/-- Witness for C4: the full one-slot container `[5]`, once with the
out-of-range index 2 and once with the in-range index 0. -/
theorem C4_try_insert_errors_witness :
    ((2 : Nat) > (⟨[some 5], 1⟩ : StackVec Nat 1).len ∧
      (⟨[some 5], 1⟩ : StackVec Nat 1).try_insert 2 7
        = (⟨[some 5], 1⟩, .error .IndexOutOfRange)) ∧
    ((0 : Nat) ≤ (⟨[some 5], 1⟩ : StackVec Nat 1).len ∧
      (⟨[some 5], 1⟩ : StackVec Nat 1).len = 1 ∧
      (⟨[some 5], 1⟩ : StackVec Nat 1).try_insert 0 7
        = (⟨[some 5], 1⟩, .error .NotEnoughSpace)) :=
  ⟨⟨by decide, (C4_try_insert_errors _ 2 7).1 (by decide)⟩,
   ⟨by decide, by decide, (C4_try_insert_errors _ 0 7).2 (by decide) (by decide)⟩⟩

/-- C8: on a full container (`len = N`) `try_push` returns the
not-enough-space error and the completely unchanged container, and it
never errs while `len < N`. -/
theorem C8_try_push_full {T : Type} {N : Nat} (s : StackVec T N) (v : T) :
    (s.len = N → s.try_push v = (s, .error ⟨⟩)) ∧
    (s.len < N → (s.try_push v).2 = .ok ()) := by
  constructor
  · intro h
    rw [StackVec.try_push, if_neg (by omega)]
  · intro h
    rw [StackVec.try_push, if_pos h]

/-- Witness for C8: the capacity-3 container filled with three values of
the unit (zero-sized) type, and a non-full one-element container. -/
theorem C8_try_push_full_witness :
    ((⟨[some (), some (), some ()], 3⟩ : StackVec Unit 3).len = 3 ∧
      (⟨[some (), some (), some ()], 3⟩ : StackVec Unit 3).try_push ()
        = (⟨[some (), some (), some ()], 3⟩, .error ⟨⟩)) ∧
    ((⟨[some (), none, none], 1⟩ : StackVec Unit 3).len < 3 ∧
      ((⟨[some (), none, none], 1⟩ : StackVec Unit 3).try_push ()).2 = .ok ()) :=
  ⟨⟨by decide, (C8_try_push_full _ ()).1 (by decide)⟩,
   ⟨by decide, (C8_try_push_full _ ()).2 (by decide)⟩⟩

/-- C5: a successful `insert idx v` (length below capacity, `idx ≤ len`)
leaves the positions before `idx` unchanged, puts `v` at position `idx`,
moves the elements previously at `[idx, len)` to `[idx+1, len+1)` in
their original relative order, and increments the length. -/
theorem C5_insert_shifts {T : Type} {N : Nat} (s : StackVec T N) (idx : Nat) (v : T)
    (hinv : s.Inv) (hidx : idx ≤ s.len) (hlen : s.len < N)
    (s2 : StackVec T N) (h : s.insert idx v = some s2) :
    s2.len = s.len + 1 ∧
    StackVec.viewO s2
      = (StackVec.viewO s).take idx ++ some v :: (StackVec.viewO s).drop idx := by
  rw [StackVec.insert, if_neg (by omega), if_neg (by omega)] at h
  obtain rfl := Option.some.inj h
  exact ⟨rfl, StackVec.viewO_insert_unchecked hinv.1 hidx hlen v⟩

/-- Witness for C5: `[1, 2]` in a capacity-3 container, inserting 9 at
index 1 gives `[1, 9, 2]`. -/
theorem C5_insert_shifts_witness :
    (⟨[some 1, some 2, none], 2⟩ : StackVec Nat 3).Inv ∧
    (⟨[some 1, some 2, none], 2⟩ : StackVec Nat 3).insert 1 9
      = some ⟨[some 1, some 9, some 2], 3⟩ ∧
    ((⟨[some 1, some 9, some 2], 3⟩ : StackVec Nat 3).len
        = (⟨[some 1, some 2, none], 2⟩ : StackVec Nat 3).len + 1 ∧
      StackVec.viewO (⟨[some 1, some 9, some 2], 3⟩ : StackVec Nat 3)
        = (StackVec.viewO (⟨[some 1, some 2, none], 2⟩ : StackVec Nat 3)).take 1
          ++ some 9 :: (StackVec.viewO (⟨[some 1, some 2, none], 2⟩ : StackVec Nat 3)).drop 1) :=
  ⟨by decide, by decide,
    C5_insert_shifts _ 1 9 (by decide) (by decide) (by decide) _ (by decide)⟩

/-- C6: after a successful `insert idx v`, `remove idx` succeeds, returns
exactly `v`, and restores the pre-insert live sequence and length. -/
theorem C6_remove_inverts_insert {T : Type} {N : Nat} (s : StackVec T N) (idx : Nat)
    (v : T) (hinv : s.Inv) (hidx : idx ≤ s.len) (hlen : s.len < N)
    (s1 : StackVec T N) (h1 : s.insert idx v = some s1)
    (p : StackVec T N × Option T) (h2 : s1.remove idx = some p) :
    p.2 = some v ∧ p.1.len = s.len ∧ StackVec.viewO p.1 = StackVec.viewO s := by
  rw [StackVec.insert, if_neg (by omega), if_neg (by omega)] at h1
  obtain rfl := Option.some.inj h1
  have hlen1 : (s.insert_unchecked idx v).len = s.len + 1 := rfl
  rw [StackVec.remove, if_neg (by rw [hlen1]; omega)] at h2
  obtain rfl := Option.some.inj h2
  have hd1 : (s.insert_unchecked idx v).data.length = N := by
    show ((memCopy s.data idx (idx + 1) (s.len - idx)).set idx (some v)).length = N
    rw [List.length_set, length_memCopy, hinv.1]
  refine ⟨?_, ?_, ?_⟩
  · show slot ((memCopy s.data idx (idx + 1) (s.len - idx)).set idx (some v)) idx
      = some v
    rw [slot_set, if_pos ⟨rfl, by rw [length_memCopy, hinv.1]; omega⟩]
  · show s.len + 1 - 1 = s.len
    omega
  · rw [StackVec.viewO_remove_unchecked hd1 (by rw [hlen1]; omega) (by rw [hlen1]; omega),
      StackVec.viewO_insert_unchecked hinv.1 hidx hlen v]
    have hA : ((StackVec.viewO s).take idx).length = idx := by
      rw [List.length_take, StackVec.length_viewO]
      omega
    have e1 : ((StackVec.viewO s).take idx
        ++ some v :: (StackVec.viewO s).drop idx).take idx
        = (StackVec.viewO s).take idx := List.take_left' hA
    have e2 : ((StackVec.viewO s).take idx
        ++ some v :: (StackVec.viewO s).drop idx).drop (idx + 1)
        = (StackVec.viewO s).drop idx := by
      have hg : (StackVec.viewO s).take idx ++ some v :: (StackVec.viewO s).drop idx
          = ((StackVec.viewO s).take idx ++ [some v]) ++ (StackVec.viewO s).drop idx := by
        simp
      rw [hg, List.drop_left' (by rw [List.length_append, hA]; rfl)]
    rw [e1, e2, List.take_append_drop]

/-- Witness for C6: `[1, 2]` in a capacity-3 container; inserting 9 at
index 1 and removing index 1 returns 9 and restores `[1, 2]`. -/
theorem C6_remove_inverts_insert_witness :
    (⟨[some 1, some 2, none], 2⟩ : StackVec Nat 3).Inv ∧
    (⟨[some 1, some 2, none], 2⟩ : StackVec Nat 3).insert 1 9
      = some ⟨[some 1, some 9, some 2], 3⟩ ∧
    (⟨[some 1, some 9, some 2], 3⟩ : StackVec Nat 3).remove 1
      = some (⟨[some 1, some 2, some 2], 2⟩, some 9) ∧
    (((⟨[some 1, some 2, some 2], 2⟩ : StackVec Nat 3), (some 9 : Option Nat)).2 = some 9 ∧
      (⟨[some 1, some 2, some 2], 2⟩ : StackVec Nat 3).len
        = (⟨[some 1, some 2, none], 2⟩ : StackVec Nat 3).len ∧
      StackVec.viewO (⟨[some 1, some 2, some 2], 2⟩ : StackVec Nat 3)
        = StackVec.viewO (⟨[some 1, some 2, none], 2⟩ : StackVec Nat 3)) :=
  ⟨by decide, by decide, by decide,
    C6_remove_inverts_insert (⟨[some 1, some 2, none], 2⟩ : StackVec Nat 3) 1 9
      (by decide) (by decide) (by decide)
      (⟨[some 1, some 9, some 2], 3⟩ : StackVec Nat 3) (by decide)
      ((⟨[some 1, some 2, some 2], 2⟩ : StackVec Nat 3), some 9) (by decide)⟩

/-- C7: pushing any sequence of `k ≤ N` values into a fresh container
succeeds, leaves the length at `k`, and popping repeatedly returns the
pushed values in exact LIFO order, each pop decrementing the length until
it reaches 0, after which `pop` yields the empty indication. -/
theorem C7_push_pop_lifo {T : Type} {N : Nat} (xs : List T) (hlen : xs.length ≤ N)
    (s : StackVec T N) (hps : StackVec.pushAll (StackVec.new T N) xs = some s) :
    s.len = xs.length ∧
    (StackVec.popAll s).1 = xs.reverse ∧
    (StackVec.popAll s).2.len = 0 ∧
    (StackVec.popAll s).2.pop = ((StackVec.popAll s).2, none) := by
  obtain ⟨s2, h1, h2, h3, h4⟩ := StackVec.pushAll_ok StackVec.inv_new xs
    (by show (StackVec.new T N).len + xs.length ≤ N; simpa [StackVec.new] using hlen)
  obtain rfl := Option.some.inj (hps.symm.trans h1)
  have hview : StackVec.viewO s = xs.map some := by
    rw [h4]
    have hempty : StackVec.viewO (StackVec.new T N) = [] := by
      simp [StackVec.viewO, StackVec.new]
    rw [hempty, List.nil_append]
  have hlen2 : s.len = xs.length := by
    rw [h3]
    show (StackVec.new T N).len + xs.length = xs.length
    simp [StackVec.new]
  obtain ⟨hfin, hpops⟩ := StackVec.popAllAux_spec s.len s h2 rfl
  refine ⟨hlen2, ?_, ?_, ?_⟩
  · apply List.map_injective_iff.mpr (Option.some_injective T)
    show (StackVec.popAll s).1.map some = xs.reverse.map some
    rw [StackVec.popAll, hpops, hview, List.map_reverse]
  · rw [StackVec.popAll, hfin]
  · rw [StackVec.popAll, hfin, StackVec.pop, if_pos rfl]

/-- Witness for C7: pushing `[3, 1, 2]` into a fresh capacity-3 container
and popping it empty. -/
theorem C7_push_pop_lifo_witness :
    ([3, 1, 2] : List Nat).length ≤ 3 ∧
    StackVec.pushAll (StackVec.new Nat 3) [3, 1, 2]
      = some ⟨[some 3, some 1, some 2], 3⟩ ∧
    ((⟨[some 3, some 1, some 2], 3⟩ : StackVec Nat 3).len
        = ([3, 1, 2] : List Nat).length ∧
      (StackVec.popAll (⟨[some 3, some 1, some 2], 3⟩ : StackVec Nat 3)).1
        = ([3, 1, 2] : List Nat).reverse ∧
      (StackVec.popAll (⟨[some 3, some 1, some 2], 3⟩ : StackVec Nat 3)).2.len = 0 ∧
      (StackVec.popAll (⟨[some 3, some 1, some 2], 3⟩ : StackVec Nat 3)).2.pop
        = ((StackVec.popAll (⟨[some 3, some 1, some 2], 3⟩ : StackVec Nat 3)).2, none)) :=
  ⟨by decide, by decide,
    C7_push_pop_lifo [3, 1, 2] (by decide)
      (⟨[some 3, some 1, some 2], 3⟩ : StackVec Nat 3) (by decide)⟩

/-- C9: `truncate k` with `k ≥ len` changes nothing and destroys nothing;
with `k < len` it destroys exactly the `len - k` tail elements of the live
view, sets the length to `k`, and leaves the prefix of the live view
untouched. -/
theorem C9_truncate_frame {T : Type} {N : Nat} (s : StackVec T N) (k : Nat)
    (hinv : s.Inv) :
    (k ≥ s.len → s.truncate k = (s, [])) ∧
    (k < s.len →
      (s.truncate k).1.len = k ∧
      StackVec.viewO (s.truncate k).1 = (StackVec.viewO s).take k ∧
      (s.truncate k).2 = (StackVec.viewO s).drop k) := by
  obtain ⟨hd, hl, _⟩ := hinv
  constructor
  · intro h
    rw [StackVec.truncate, StackVec.drop_range_vals, if_neg (by omega),
      Nat.min_eq_left h]
  · intro h
    refine ⟨?_, ?_, ?_⟩
    · show min s.len k = k
      omega
    · show (List.range (min s.len k)).map (fun i => slot s.data i)
        = (StackVec.viewO s).take k
      rw [StackVec.viewO, ← List.map_take, List.take_range, Nat.min_comm]
    · show StackVec.drop_range_vals s.data k s.len = (StackVec.viewO s).drop k
      rw [StackVec.drop_range_vals, if_pos h]
      apply List.ext_getElem?_iff.mpr
      intro i
      rw [List.getElem?_drop, StackVec.getElem?_viewO]
      by_cases hi : i < s.len - k
      · rw [List.getElem?_take_of_lt hi, List.getElem?_drop, if_pos (by omega),
          slot_eq_getElem?, List.getElem?_eq_getElem (by omega)]
        rfl
      · rw [if_neg (by omega), List.getElem?_eq_none_iff.mpr]
        simp only [List.length_take, List.length_drop]
        omega

/-- Witness for C9: the full capacity-3 container `[1, 2, 3]`, truncated
to 5 (no-op) and to 1 (destroys the tail `[2, 3]`). -/
theorem C9_truncate_frame_witness :
    ((5 : Nat) ≥ (⟨[some 1, some 2, some 3], 3⟩ : StackVec Nat 3).len ∧
      (⟨[some 1, some 2, some 3], 3⟩ : StackVec Nat 3).truncate 5
        = (⟨[some 1, some 2, some 3], 3⟩, [])) ∧
    ((1 : Nat) < (⟨[some 1, some 2, some 3], 3⟩ : StackVec Nat 3).len ∧
      (((⟨[some 1, some 2, some 3], 3⟩ : StackVec Nat 3).truncate 1).1.len = 1 ∧
        StackVec.viewO ((⟨[some 1, some 2, some 3], 3⟩ : StackVec Nat 3).truncate 1).1
          = (StackVec.viewO (⟨[some 1, some 2, some 3], 3⟩ : StackVec Nat 3)).take 1 ∧
        ((⟨[some 1, some 2, some 3], 3⟩ : StackVec Nat 3).truncate 1).2
          = (StackVec.viewO (⟨[some 1, some 2, some 3], 3⟩ : StackVec Nat 3)).drop 1)) :=
  ⟨⟨by decide,
      (C9_truncate_frame (⟨[some 1, some 2, some 3], 3⟩ : StackVec Nat 3) 5
        (by decide)).1 (by decide)⟩,
   ⟨by decide,
      (C9_truncate_frame (⟨[some 1, some 2, some 3], 3⟩ : StackVec Nat 3) 1
        (by decide)).2 (by decide)⟩⟩

/-- C10, amended: every public container operation — `new`, `from_array`,
`from_value`, `push`/`try_push`, `insert`/`try_insert`, `pop`,
`remove`/`try_remove`, `clear`, `truncate`, `resize`, `extend_with`,
`extend` — preserves the invariant `0 ≤ len ≤ N` with live values in all
slots of `[0, len)`, and the slice view exposes exactly the slots
`[0, len)` (it has length `len` and equals the prefix `data.take len`),
never a slot at or beyond `len`.  For `extend_with` this is asserted only
for counts whose machine addition `len + n` does not overflow
(`len + n < 2^64`): at overflowing counts the capacity check is defeated
and the write loop leaves the container's storage (see the accompanying
counterexample), so the source guarantees nothing there. -/
theorem C10_public_ops_preserve_inv {T : Type} {N : Nat} (s : StackVec T N)
    (idx n k : Nat) (v : T) (arr xs : List T) (hinv : s.Inv) :
    (StackVec.new T N).Inv ∧
    StackVec.InvO (StackVec.from_array arr : Option (StackVec T N)) ∧
    StackVec.InvO (StackVec.from_value v n : Option (StackVec T N)) ∧
    (s.try_push v).1.Inv ∧
    StackVec.InvO (s.push v) ∧
    (s.try_insert idx v).1.Inv ∧
    StackVec.InvO (s.insert idx v) ∧
    (s.pop).1.Inv ∧
    StackVec.InvP (s.remove idx) ∧
    (s.try_remove idx).1.Inv ∧
    (s.clear).Inv ∧
    (s.truncate k).1.Inv ∧
    StackVec.InvO (s.resize k v) ∧
    (s.len + n < USIZE → StackVec.InvO (s.extend_with n v)) ∧
    (s.extend xs).1.Inv ∧
    (StackVec.viewO s).length = s.len ∧
    StackVec.viewO s = s.data.take s.len :=
  ⟨StackVec.inv_new, StackVec.invO_from_array arr, StackVec.invO_from_value v n,
   StackVec.inv_try_push hinv v, StackVec.invO_push hinv v,
   StackVec.inv_try_insert hinv idx v, StackVec.invO_insert hinv idx v,
   StackVec.inv_pop hinv, StackVec.invP_remove hinv idx,
   StackVec.inv_try_remove hinv idx, StackVec.inv_clear hinv,
   StackVec.inv_truncate hinv k, StackVec.invO_resize hinv k v,
   fun _ => StackVec.invO_extend_with hinv n v, StackVec.inv_extend hinv xs,
   StackVec.length_viewO s, StackVec.viewO_eq_take s (by rw [hinv.1]; exact hinv.2.1)⟩

/-- Witness for C10 at `T = Nat`, `N = 2`, the one-element container
`[1]`, `idx = 0`, `n = 1`, `k = 0`, `v = 7`, `arr = [4]`, `xs = [9]`; the
leading conjunct shows the no-overflow hypothesis of the `extend_with`
conjunct holds non-vacuously at this input. -/
theorem C10_public_ops_preserve_inv_witness :
    (⟨[some 1, none], 1⟩ : StackVec Nat 2).len + 1 < USIZE ∧
    ((StackVec.new Nat 2).Inv ∧
    StackVec.InvO (StackVec.from_array [4] : Option (StackVec Nat 2)) ∧
    StackVec.InvO (StackVec.from_value 7 1 : Option (StackVec Nat 2)) ∧
    ((⟨[some 1, none], 1⟩ : StackVec Nat 2).try_push 7).1.Inv ∧
    StackVec.InvO ((⟨[some 1, none], 1⟩ : StackVec Nat 2).push 7) ∧
    ((⟨[some 1, none], 1⟩ : StackVec Nat 2).try_insert 0 7).1.Inv ∧
    StackVec.InvO ((⟨[some 1, none], 1⟩ : StackVec Nat 2).insert 0 7) ∧
    ((⟨[some 1, none], 1⟩ : StackVec Nat 2).pop).1.Inv ∧
    StackVec.InvP ((⟨[some 1, none], 1⟩ : StackVec Nat 2).remove 0) ∧
    ((⟨[some 1, none], 1⟩ : StackVec Nat 2).try_remove 0).1.Inv ∧
    ((⟨[some 1, none], 1⟩ : StackVec Nat 2).clear).Inv ∧
    ((⟨[some 1, none], 1⟩ : StackVec Nat 2).truncate 0).1.Inv ∧
    StackVec.InvO ((⟨[some 1, none], 1⟩ : StackVec Nat 2).resize 0 7) ∧
    ((⟨[some 1, none], 1⟩ : StackVec Nat 2).len + 1 < USIZE
      → StackVec.InvO ((⟨[some 1, none], 1⟩ : StackVec Nat 2).extend_with 1 7)) ∧
    ((⟨[some 1, none], 1⟩ : StackVec Nat 2).extend [9]).1.Inv ∧
    (StackVec.viewO (⟨[some 1, none], 1⟩ : StackVec Nat 2)).length
      = (⟨[some 1, none], 1⟩ : StackVec Nat 2).len ∧
    StackVec.viewO (⟨[some 1, none], 1⟩ : StackVec Nat 2)
      = (⟨[some 1, none], 1⟩ : StackVec Nat 2).data.take
          (⟨[some 1, none], 1⟩ : StackVec Nat 2).len) :=
  ⟨by norm_num [USIZE],
   C10_public_ops_preserve_inv (⟨[some 1, none], 1⟩ : StackVec Nat 2)
     0 1 0 7 [4] [9] (by decide)⟩

/-- C10: counterexample to the claim as stated.  At the wrapped input of
the C3 bug — capacity `N = 1`, one live element, count `n = 2^64 - 1` —
the capacity check passes, so `extend_with` does not panic; yet the write
loop it then runs targets the raw slot offsets `[1, 2^64)`, every one of
them at or beyond the container's single slot.  That is an out-of-bounds
write run (undefined behavior in the source), after which the program
preserves no invariant at all, so the unconditional claim fails; the
amended claim adds the no-overflow hypothesis `len + n < 2^64` to the
`extend_with` conjunct. -/
theorem C10_extend_with_oob_write :
    ((⟨[some 5], 1⟩ : StackVec Nat 1).extend_with (USIZE - 1) 7).isSome = true ∧
    (⟨[some 5], 1⟩ : StackVec Nat 1).extend_with_targets (USIZE - 1) = (1, USIZE) := by
  refine ⟨?_, ?_⟩
  · rw [StackVec.extend_with]
    norm_num [USIZE]
  · show ((1 : Nat), 1 + (USIZE - 1)) = (1, USIZE)
    norm_num [USIZE]
